import Mathlib

/-!
Verification of the LinkLogic knowledge-graph RAG core
(`app_using_KG.py` / `app_using_llama.py`).

The Python classes are shallowly embedded: the mutable `KnowledgeGraphRAG`
object becomes an explicit `State` record threaded through the operations,
`networkx.DiGraph` becomes an association list from ordered node pairs to
relation labels, the torch embedding vectors become `List ℚ`, and the external
sentence-transformer / cosine routines become opaque function parameters
(the spec treats the embedding provider as an opaque deterministic function).
Python exceptions become `Except String` results.  Python string comparison
(lexicographic on code points) is modelled by the lexicographic order on the
strings' character lists.
-/

set_option maxHeartbeats 1000000

deriving instance DecidableEq for Except

namespace LinkLogic

/-- `Triple` of `app_using_KG.py` / `app_using_llama.py`: a knowledge-graph
fact `(head, relation, tail)` with structural equality and hashing. -/
structure Triple where
  head : String
  relation : String
  tail : String
deriving DecidableEq

/-- Embedding vectors (`torch.Tensor` in the source) are modelled as rational
vectors; all the core logic treats them opaquely. -/
abbrev Vec := List ℚ

/-- Python string comparison: lexicographic on code points, i.e. the
lexicographic order on the character list. -/
def strLE (a b : String) : Prop := a.data ≤ b.data

instance : DecidableRel strLE := fun a b => inferInstanceAs (Decidable (a.data ≤ b.data))

instance : IsTotal String strLE := ⟨fun a b => le_total a.data b.data⟩

instance : IsTrans String strLE := ⟨fun _ _ _ h h' => le_trans h h'⟩

/-- Lexicographic sort key of a triple, mirroring the Python tuple
`(x.head, x.relation, x.tail)` used with `sorted`. -/
def tripleKey (t : Triple) : Lex (List Char × Lex (List Char × List Char)) :=
  toLex (t.head.data, toLex (t.relation.data, t.tail.data))

/-- The ordering `sorted(..., key=lambda x: (x.head, x.relation, x.tail))`
uses: lexicographic on the three components. -/
def tripleLE (a b : Triple) : Prop := tripleKey a ≤ tripleKey b

instance : DecidableRel tripleLE := fun a b =>
  inferInstanceAs (Decidable (tripleKey a ≤ tripleKey b))

instance : IsTotal Triple tripleLE := ⟨fun a b => le_total (tripleKey a) (tripleKey b)⟩

instance : IsTrans Triple tripleLE := ⟨fun _ _ _ h h' => le_trans h h'⟩

/-- Lexicographic order on ordered node pairs, as Python compares
`(head, tail)` tuples when sorting `edge_embeddings.keys()`. -/
def pairKey (p : String × String) : Lex (List Char × List Char) :=
  toLex (p.1.data, p.2.data)

def pairLE (a b : String × String) : Prop := pairKey a ≤ pairKey b

instance : DecidableRel pairLE := fun a b =>
  inferInstanceAs (Decidable (pairKey a ≤ pairKey b))

instance : IsTotal (String × String) pairLE := ⟨fun a b => le_total (pairKey a) (pairKey b)⟩

instance : IsTrans (String × String) pairLE := ⟨fun _ _ _ h h' => le_trans h h'⟩

/-- The whole mutable state of a `KnowledgeGraphRAG` object:
`knowledge_graph` (a `networkx.DiGraph`, kept as the list of its directed
edges with their `relation` attribute), `node_embeddings`, `edge_embeddings`
and `triple_to_edge`. -/
structure State where
  graph : List ((String × String) × String)
  nodeEmb : List (String × Vec)
  edgeEmb : List ((String × String) × Vec)
  tripleToEdge : List (Triple × (String × String))
deriving DecidableEq

/-- The freshly constructed system: empty graph and empty caches. -/
def emptyState : State := ⟨[], [], [], []⟩

/-- Generic association-list lookup (first matching key), modelling Python
dict access. -/
def lookupKey {α β : Type} [DecidableEq α] (k : α) : List (α × β) → Option β
  | [] => none
  | e :: rest => if e.1 = k then some e.2 else lookupKey k rest

/-- Generic association-list insert/overwrite (replacing the first matching
key in place, appending otherwise), modelling Python dict assignment; it is
also how `networkx.DiGraph.add_edge` overwrites the `relation` attribute of
an existing edge. -/
def insertKey {α β : Type} [DecidableEq α] (k : α) (v : β) :
    List (α × β) → List (α × β)
  | [] => [(k, v)]
  | e :: rest => if e.1 = k then (k, v) :: rest else e :: insertKey k v rest

/-- `knowledge_graph.has_edge(a, b)` combined with the `relation` attribute
read `knowledge_graph[a][b]['relation']`. -/
def relationOf (s : State) (a b : String) : Option String :=
  lookupKey (a, b) s.graph

/-- `knowledge_graph[a][b]['relation']` on an edge assumed to exist; states
reachable through `add_triple` always have the edge in the graph whenever
`(a, b)` carries an edge embedding, so the default is never hit there. -/
def relD (s : State) (a b : String) : String :=
  (relationOf s a b).getD ""

/-- The node set of the `networkx` digraph: `add_edge` registers both
endpoints as nodes. -/
def graphNodes (s : State) : List String :=
  s.graph.foldr (fun e acc => e.1.1 :: e.1.2 :: acc) []

/-- Successors of `node` in the digraph (the keys of `_adj[node]`):
`networkx.DiGraph.neighbors` iterates outgoing edges only. -/
def successors (s : State) (node : String) : List String :=
  (s.graph.filterMap fun e => if e.1.1 = node then some e.1.2 else none).dedup

/-- `sorted(list(self.knowledge_graph.neighbors(node)))`: succeeds with the
alphabetically sorted successor list when `node` is a graph node, and raises
`NetworkXError` otherwise. -/
def neighborsE (s : State) (node : String) : Except String (List String) :=
  if node ∈ graphNodes s then
    .ok (List.insertionSort strLE (successors s node))
  else
    .error ("The node " ++ node ++ " is not in the digraph.")

/-- `str.lower()` (modelled on the ASCII range, like `Char.toLower`)
followed by `' '.join(text.split())`: whitespace-tokenize dropping empty
tokens, then re-join with single spaces. -/
def splitWsAux : List Char → List Char → List (List Char)
  | [], cur => [cur.reverse]
  | c :: cs, cur =>
      if c.isWhitespace then cur.reverse :: splitWsAux cs []
      else splitWsAux cs (c :: cur)

/-- Text normalization `' '.join(text.lower().split())` applied by
`_compute_embedding` and to queries. -/
def normalizeText (text : String) : String :=
  let words := (splitWsAux (text.data.map Char.toLower) []).filter (fun w => w ≠ [])
  String.intercalate " " (words.map fun w => String.mk w)

/-- `_compute_embedding`: normalize, then call the (opaque, possibly
failing) embedding provider. -/
def computeEmbeddingE (embedP : String → Option Vec) (text : String) : Option Vec :=
  embedP (normalizeText text)

/-- The node-embedding loop of `add_triple`: walk the nodes in sorted order,
computing an embedding for each node not already cached; a provider failure
aborts the walk with the embeddings computed so far left committed. -/
def addNodeEmbs (embedP : String → Option Vec) :
    List String → State → State × Except String Unit
  | [], s => (s, .ok ())
  | n :: rest, s =>
      match lookupKey n s.nodeEmb with
      | some _ => addNodeEmbs embedP rest s
      | none =>
          match computeEmbeddingE embedP n with
          | none => (s, .error "embedding provider failed")
          | some v => addNodeEmbs embedP rest { s with nodeEmb := insertKey n v s.nodeEmb }

/-- `sorted([x, y])` on a two-element list. -/
def sortedPairList (x y : String) : List String :=
  if strLE x y then [x, y] else [y, x]

/-- `add_triple(head, relation, tail)` with a fallible embedding provider.
The graph edge is inserted first; then node embeddings are ensured in sorted
node order; then the edge embedding for `(head, tail)` is recomputed from
`"{head} {relation} {tail}"` and `triple_to_edge` updated.  A provider
failure is re-raised as `ValueError` but every mutation already performed
stays committed (the Python object is mutated in place). -/
def addTripleE (embedP : String → Option Vec) (s : State)
    (head relation tail : String) : State × Except String Unit :=
  let s1 : State := { s with graph := insertKey (head, tail) relation s.graph }
  match addNodeEmbs embedP (sortedPairList head tail) s1 with
  | (s2, .error e) => (s2, .error ("Failed to add triple: " ++ e))
  | (s2, .ok _) =>
      match computeEmbeddingE embedP (head ++ " " ++ relation ++ " " ++ tail) with
      | none => (s2, .error "Failed to add triple: embedding provider failed")
      | some v =>
          ({ s2 with
              edgeEmb := insertKey (head, tail) v s2.edgeEmb,
              tripleToEdge :=
                insertKey (Triple.mk head relation tail) (head, tail) s2.tripleToEdge },
            .ok ())

/-- `add_triple` with a total embedding provider (the provider is an opaque
deterministic function, per the spec); returns the updated state. -/
def addTriple (embed : String → Vec) (s : State) (head relation tail : String) : State :=
  (addTripleE (fun t => some (embed t)) s head relation tail).1

/-- Result of `retrieve_relevant_subgraph` (`app_using_llama.py`): the early
return on an empty `edge_embeddings` dict is the bare list `[]`, while the
main path returns the 3-tuple
`(ranked list, max_score, max_score_triple)`. -/
inductive RetrieveResult where
  | bare (ranked : List Triple)
  | full (ranked : List Triple) (maxScore : ℚ) (maxTriple : Option Triple)
deriving DecidableEq

/-- The ranked-list component of a retrieval result. -/
def RetrieveResult.rankedList : RetrieveResult → List Triple
  | .bare r => r
  | .full r _ _ => r

/-- The `max_score_triple` component of a retrieval result (absent on the
empty-store early return). -/
def RetrieveResult.bestTriple : RetrieveResult → Option Triple
  | .bare _ => none
  | .full _ _ mt => mt

/-- The `max_score` component of a retrieval result (absent on the
empty-store early return). -/
def RetrieveResult.bestScore : RetrieveResult → Option ℚ
  | .bare _ => none
  | .full _ m _ => some m

/-- `sorted(self.edge_embeddings.keys())`: the stored edge keys in
ascending lexicographic order (dict keys are distinct; `dedup` covers
association lists with repeated keys, which `add_triple` never produces). -/
def edgeKeys (s : State) : List (String × String) :=
  List.insertionSort pairLE (s.edgeEmb.map Prod.fst).dedup

/-- `self.edge_embeddings[key]` for a key known to be present. -/
def edgeEmbD (s : State) (k : String × String) : Vec :=
  (lookupKey k s.edgeEmb).getD []

/-- The triple reconstructed from a stored edge:
`Triple(head, self.knowledge_graph[head][tail]['relation'], tail)`. -/
def tripleOfKey (s : State) (k : String × String) : Triple :=
  ⟨k.1, relD s k.1 k.2, k.2⟩

/-- A triple currently derivable from the store: its `(head, tail)` pair is
a stored edge (with an edge embedding) and its relation label is the one the
graph stores for that pair. -/
def storedTriple (s : State) (t : Triple) : Prop :=
  (t.head, t.tail) ∈ s.edgeEmb.map Prod.fst ∧ t.relation = relD s t.head t.tail

/-- Python sort key `(-score, triple.head, triple.relation, triple.tail)`
used on `similarities.items()`. -/
def rankKey (x : Triple × ℚ) : Lex (ℚ × Lex (List Char × Lex (List Char × List Char))) :=
  toLex (-x.2, tripleKey x.1)

/-- Comparison by descending score with ties broken by ascending
`(head, relation, tail)`. -/
def rankLE (x y : Triple × ℚ) : Prop := rankKey x ≤ rankKey y

instance : DecidableRel rankLE := fun a b =>
  inferInstanceAs (Decidable (rankKey a ≤ rankKey b))

instance : IsTotal (Triple × ℚ) rankLE := ⟨fun a b => le_total (rankKey a) (rankKey b)⟩

instance : IsTrans (Triple × ℚ) rankLE := ⟨fun _ _ _ h h' => le_trans h h'⟩

/-- The similarity of the (twice-)normalized query against a stored edge
embedding, with the cosine routine and embedding provider opaque. -/
def queryScore (cos : Vec → Vec → ℚ) (embedP : String → Vec) (s : State)
    (query : String) (k : String × String) : ℚ :=
  cos (embedP (normalizeText (normalizeText query))) (edgeEmbD s k)

/-- Accumulator of the scoring loop of `retrieve_relevant_subgraph`:
`max_score`, `max_score_triple` and the insertion-ordered
`similarities` dict. -/
structure ScanAcc where
  maxScore : ℚ
  maxTriple : Option Triple
  sims : List (Triple × ℚ)
deriving DecidableEq

/-- The scoring loop of `retrieve_relevant_subgraph`
(`for idx, (head, tail) in enumerate(edge_keys)`): track the strict maximum
(`if score > max_score`) and collect every triple with
`score >= similarity_threshold`. -/
def scanEdges (s : State) (f : String × String → ℚ) (threshold : ℚ) :
    List (String × String) → ScanAcc → ScanAcc
  | [], acc => acc
  | k :: ks, acc =>
      let score := f k
      let tr := tripleOfKey s k
      scanEdges s f threshold ks
        { maxScore := if acc.maxScore < score then score else acc.maxScore
          maxTriple := if acc.maxScore < score then some tr else acc.maxTriple
          sims := if threshold ≤ score then acc.sims ++ [(tr, score)] else acc.sims }

/-- `retrieve_relevant_subgraph(query, top_k, similarity_threshold)`
(`app_using_llama.py`): empty store short-circuits to a bare `[]`; otherwise
score every stored edge in sorted key order against the normalized query,
keep the scores `>= similarity_threshold`, sort by
`(-score, head, relation, tail)` and truncate to `top_k`, also reporting
`max_score` (initialized to `-1`) and `max_score_triple` (initialized to
`None`, updated on strict improvement only).  The `app_using_KG.py` variant
computes the same ranked list but returns it alone. -/
def retrieveRelevantSubgraph (cos : Vec → Vec → ℚ) (embedP : String → Vec)
    (s : State) (query : String) (top_k : ℕ) (threshold : ℚ) : RetrieveResult :=
  if s.edgeEmb = [] then .bare []
  else
    let acc := scanEdges s (queryScore cos embedP s query) threshold (edgeKeys s)
      ⟨-1, none, []⟩
    .full (((List.insertionSort rankLE acc.sims).take top_k).map Prod.fst)
      acc.maxScore acc.maxTriple

/-- Rational stand-in for `util.pytorch_cos_sim` /  `F.cosine_similarity`
restricted to unit vectors, where cosine similarity is exactly the dot
product (used for concrete instances; real float cosine attains the same
values, e.g. exactly `-1.0` on opposite unit vectors). -/
def dotQ (a b : Vec) : ℚ :=
  (List.zipWith (· * ·) a b).sum

/-- A provider of unit embeddings that maps the text `"q"` to `[1, 0]` and
everything else to `[-1, 0]`: against query `"q"`, every stored edge then
scores exactly `-1`. -/
def embedOpp (t : String) : Vec :=
  if t = "q" then [1, 0] else [-1, 0]

/-- A constant unit-embedding provider: every similarity score is `1`. -/
def embedOne (_ : String) : Vec := [1]

/-- `knowledge_graph.has_edge(a, b)`. -/
def hasEdge (s : State) (a b : String) : Bool :=
  (lookupKey (a, b) s.graph).isSome

/-- Store with edges `x→y` and `y→z` only: `x` is a pure predecessor of
`y`. -/
def stC2 : State :=
  addTriple embedOne (addTriple embedOne emptyState "x" "rx" "y") "y" "rz" "z"

/-- Store with edges `x→y`, `y→x` and `y→z`: the predecessor `x` of `y` is
also a successor of `y`. -/
def stC2w : State :=
  addTriple embedOne
    (addTriple embedOne (addTriple embedOne emptyState "x" "rx" "y") "y" "ry" "x")
    "y" "rz" "z"

/-- The rendering `f"{triple.head} {triple.relation} {triple.tail}."` of the
natural format. -/
def renderNat (t : Triple) : String :=
  t.head ++ " " ++ t.relation ++ " " ++ t.tail ++ "."

/-- The rendering `f"{rel} {obj}"` of one predicate pair in the structured
format. -/
def renderPred (p : String × String) : String :=
  p.1 ++ " " ++ p.2

/-- `generate_context(triples, format_type)`: sort the triples by
`(head, relation, tail)`; in `'natural'` style render each as
`"{head} {relation} {tail}."` joined by single spaces; in `'structured'`
style group by head, sort the `(relation, tail)` pairs of each group, render
each group as `"{head} -> {rel1} {obj1}; {rel2} {obj2}"` and join the
head-sorted groups with newlines; any other style raises
`ValueError(f"Unsupported format type: {format_type}")`. -/
def generateContext (triples : List Triple) (format_type : String) : Except String String :=
  let sortedTriples := List.insertionSort tripleLE triples
  if format_type = "natural" then
    .ok (String.intercalate " " (sortedTriples.map renderNat))
  else if format_type = "structured" then
    let heads := List.insertionSort strLE (sortedTriples.map Triple.head).dedup
    let parts := heads.map fun subject =>
      let predicates := List.insertionSort pairLE
        ((sortedTriples.filter (fun t => t.head = subject)).map fun t => (t.relation, t.tail))
      subject ++ " -> " ++ String.intercalate "; " (predicates.map renderPred)
    .ok (String.intercalate "\n" parts)
  else
    .error ("Unsupported format type: " ++ format_type)

/-- Insertion into a Python set, modelled as a duplicate-free list (only
membership is ever observed; every ordered read goes through `sorted`). -/
def insertNew {α : Type} [DecidableEq α] (a : α) (l : List α) : List α :=
  if a ∈ l then l else l ++ [a]

/-- The body of `for neighbor in neighbors:` in `expand_subgraph`: skip
neighbors already in `seen_nodes`; otherwise add the outgoing triple
`(node, ·, neighbor)` if that edge exists, add the incoming triple
`(neighbor, ·, node)` if that edge exists, and mark the neighbor seen
regardless. -/
def processNeighbor (s : State) (node : String) (acc : List Triple × List String)
    (nb : String) : List Triple × List String :=
  if nb ∈ acc.2 then acc
  else
    let nt1 :=
      match relationOf s node nb with
      | some rel => insertNew (Triple.mk node rel nb) acc.1
      | none => acc.1
    let nt2 :=
      match relationOf s nb node with
      | some rel => insertNew (Triple.mk nb rel node) nt1
      | none => nt1
    (nt2, acc.2 ++ [nb])

/-- One endpoint entity of a snapshot triple:
`neighbors = sorted(list(self.knowledge_graph.neighbors(node)))[:max_nodes_per_hop]`
(raising if `node` is not a graph node) followed by the neighbor loop. -/
def processNode (s : State) (cap : ℕ) (acc : List Triple × List String)
    (node : String) : Except String (List Triple × List String) :=
  match neighborsE s node with
  | .error e => .error e
  | .ok nbs => .ok ((nbs.take cap).foldl (processNeighbor s node) acc)

/-- `for node in sorted([triple.head, triple.tail]):` -/
def processNodes (s : State) (cap : ℕ) :
    List String → List Triple × List String → Except String (List Triple × List String)
  | [], acc => .ok acc
  | n :: ns, acc =>
      match processNode s cap acc n with
      | .error e => .error e
      | .ok acc' => processNodes s cap ns acc'

/-- `for triple in sorted(expanded_triples, key=...):` threading the
per-round `new_triples` set and the persistent `seen_nodes` set. -/
def processTriples (s : State) (cap : ℕ) :
    List Triple → List Triple × List String → Except String (List Triple × List String)
  | [], acc => .ok acc
  | t :: ts, acc =>
      match processNodes s cap (sortedPairList t.head t.tail) acc with
      | .error e => .error e
      | .ok acc' => processTriples s cap ts acc'

/-- One round of the `for _ in range(hops)` loop: process the sorted
snapshot of `expanded_triples` starting from an empty `new_triples` set,
then merge the discoveries into `expanded_triples`
(`expanded_triples.update(new_triples)`). -/
def oneHop (s : State) (cap : ℕ) (st : List Triple × List String) :
    Except String (List Triple × List String) :=
  match processTriples s cap (List.insertionSort tripleLE st.1) ([], st.2) with
  | .error e => .error e
  | .ok (nt, seen) => .ok (nt.foldl (fun l t => insertNew t l) st.1, seen)

/-- `for _ in range(hops)`. -/
def expandLoop (s : State) (cap : ℕ) :
    ℕ → List Triple × List String → Except String (List Triple × List String)
  | 0, st => .ok st
  | n + 1, st =>
      match oneHop s cap st with
      | .error e => .error e
      | .ok st' => expandLoop s cap n st'

/-- `expand_subgraph(triples, hops, max_nodes_per_hop)`: start from
`expanded_triples = set(triples)` and
`seen_nodes = {endpoints of triples}`, run `hops` rounds of neighbor
discovery (propagating the `NetworkXError` that
`knowledge_graph.neighbors` raises on a node missing from the graph), and
return the final set sorted by `(head, relation, tail)`. -/
def expandSubgraph (s : State) (triples : List Triple) (hops cap : ℕ) :
    Except String (List Triple) :=
  let e0 := triples.foldl (fun l t => insertNew t l) []
  let seen0 := triples.foldl (fun l t => insertNew t.tail (insertNew t.head l)) []
  match expandLoop s cap hops (e0, seen0) with
  | .error e => .error e
  | .ok (l, _) => .ok (List.insertionSort tripleLE l)

theorem string_data_injective : Function.Injective String.data := by
  intro a b h
  cases a; cases b
  exact congrArg String.mk h

theorem tripleKey_injective : Function.Injective tripleKey := by
  intro a b h
  cases a; cases b
  simp only [tripleKey] at h
  have h1 := congrArg (fun x => (ofLex x).1) h
  have h2 := congrArg (fun x => (ofLex (ofLex x).2).1) h
  have h3 := congrArg (fun x => (ofLex (ofLex x).2).2) h
  simp only [ofLex_toLex] at h1 h2 h3
  simp [string_data_injective h1, string_data_injective h2, string_data_injective h3]

theorem pairKey_injective : Function.Injective pairKey := by
  intro a b h
  have h1 := congrArg (fun x => (ofLex x).1) h
  have h2 := congrArg (fun x => (ofLex x).2) h
  simp only [pairKey, ofLex_toLex] at h1 h2
  exact Prod.ext (string_data_injective h1) (string_data_injective h2)

theorem intercalate_singleton (s a : String) : String.intercalate s [a] = a := rfl

theorem intercalate_pair (s a b : String) : String.intercalate s [a, b] = a ++ s ++ b := rfl

theorem strAppend_assoc (a b c : String) : a ++ b ++ c = a ++ (b ++ c) := by
  cases a; cases b; cases c
  exact congrArg String.mk (List.append_assoc _ _ _)

/-- C7: `format(triples, 'natural')` renders the triples sorted by
`(head, relation, tail)`, each as `'{head} {relation} {tail}.'`, joined with
a single space; `format(triples, 'structured')` — for every input — groups
the sorted triples by head, sorts the `(relation, tail)` pairs within each
group (each group holding exactly the pairs of the triples with that head),
renders each group as `'{head} -> {rel1} {obj1}; {rel2} {obj2}'` and joins
the groups, taken over the sorted distinct heads, with newlines; in
particular `format([(A,r,B)], 'natural') = "A r B."` and
`format([(A,r1,B),(A,r2,C)], 'structured') = "A -> r1 B; r2 C"` (for the
structured example the pairs are taken in sorted order). -/
theorem c7_formatting :
    (∀ ts : List Triple, ∃ l : List Triple, l.Perm ts ∧ l.Sorted tripleLE ∧
        generateContext ts "natural" =
          .ok (String.intercalate " " (l.map renderNat))) ∧
    (∀ A r B : String,
        generateContext [⟨A, r, B⟩] "natural" =
          .ok (A ++ " " ++ r ++ " " ++ B ++ ".")) ∧
    (∀ A r1 B r2 C : String, pairLE (r1, B) (r2, C) →
        generateContext [⟨A, r1, B⟩, ⟨A, r2, C⟩] "structured" =
          .ok (A ++ " -> " ++ r1 ++ " " ++ B ++ "; " ++ r2 ++ " " ++ C)) ∧
    (∀ ts : List Triple, ∃ (hs : List String) (g : String → List (String × String)),
        hs.Sorted strLE ∧ hs.Nodup ∧
        (∀ x, x ∈ hs ↔ x ∈ ts.map Triple.head) ∧
        (∀ h, (g h).Sorted pairLE) ∧
        (∀ h, (g h).Perm
          ((ts.filter (fun t => t.head = h)).map fun t => (t.relation, t.tail))) ∧
        generateContext ts "structured" =
          .ok (String.intercalate "\n" (hs.map fun h =>
            h ++ " -> " ++ String.intercalate "; " ((g h).map renderPred)))) := by
  refine ⟨fun ts => ⟨List.insertionSort tripleLE ts, List.perm_insertionSort _ _,
      List.sorted_insertionSort _ _, ?_⟩, fun A r B => rfl, fun A r1 B r2 C h => ?_,
      fun ts => ?_⟩
  · simp only [generateContext, if_true]
  · have ht : tripleLE ⟨A, r1, B⟩ ⟨A, r2, C⟩ :=
      Prod.Lex.toLex_mono ⟨le_rfl, h⟩
    simp only [generateContext, if_true]
    rw [if_neg (show ("structured" : String) ≠ "natural" from by decide)]
    simp only [List.insertionSort, List.orderedInsert]
    rw [if_pos ht]
    simp only [List.map_cons, List.map_nil, List.filter_cons, List.filter_nil]
    simp [List.dedup_cons_of_mem]
    rw [if_pos h]
    simp [intercalate_singleton, intercalate_pair, renderPred, strAppend_assoc]
  · refine ⟨List.insertionSort strLE ((List.insertionSort tripleLE ts).map Triple.head).dedup,
      fun h => List.insertionSort pairLE
        (((List.insertionSort tripleLE ts).filter (fun t => t.head = h)).map
          fun t => (t.relation, t.tail)),
      List.sorted_insertionSort _ _, ?_, ?_, fun h => List.sorted_insertionSort _ _,
      fun h => ?_, ?_⟩
    · exact (List.perm_insertionSort strLE _).nodup_iff.mpr (List.nodup_dedup _)
    · intro x
      rw [List.mem_insertionSort, List.mem_dedup]
      exact ((List.perm_insertionSort tripleLE ts).map Triple.head).mem_iff
    · exact (List.perm_insertionSort pairLE _).trans
        (((List.perm_insertionSort tripleLE ts).filter _).map _)
    · simp only [generateContext, if_true]
      rw [if_neg (show ("structured" : String) ≠ "natural" from by decide)]

/-- C8: for every style value other than `'natural'` and `'structured'`,
`format(triples, style)` fails with a `FormatError` (a raised `ValueError`)
whose message names the unsupported style, and produces no formatted
output. -/
theorem c8_format_error (triples : List Triple) (style : String)
    (h1 : style ≠ "natural") (h2 : style ≠ "structured") :
    generateContext triples style = .error ("Unsupported format type: " ++ style) := by
  simp only [generateContext]
  rw [if_neg h1, if_neg h2]

theorem c8_witness :
    generateContext [⟨"A", "r", "B"⟩] "xml"
      = .error ("Unsupported format type: " ++ "xml") :=
  c8_format_error [⟨"A", "r", "B"⟩] "xml" (by decide) (by decide)

instance (s : State) (t : Triple) : Decidable (storedTriple s t) :=
  inferInstanceAs (Decidable (_ ∧ _))

theorem mem_insertNew {α : Type} [DecidableEq α] {a b : α} {l : List α} :
    a ∈ insertNew b l ↔ a = b ∨ a ∈ l := by
  rw [insertNew]
  by_cases hb : b ∈ l
  · rw [if_pos hb]
    constructor
    · exact Or.inr
    · rintro (rfl | h)
      · exact hb
      · exact h
  · rw [if_neg hb]
    simp [or_comm]

theorem nodup_insertNew {α : Type} [DecidableEq α] {b : α} {l : List α} (h : l.Nodup) :
    (insertNew b l).Nodup := by
  rw [insertNew]
  by_cases hb : b ∈ l
  · rwa [if_pos hb]
  · rw [if_neg hb]
    refine List.Nodup.append h (List.nodup_singleton b) ?_
    intro x hx hxb
    rw [List.mem_singleton] at hxb
    subst hxb
    exact hb hx

theorem mem_foldl_insertNew {α : Type} [DecidableEq α] :
    ∀ (ls init : List α) (a : α),
      a ∈ ls.foldl (fun l t => insertNew t l) init ↔ a ∈ init ∨ a ∈ ls
  | [], init, a => by simp
  | t :: ts, init, a => by
      rw [List.foldl_cons, mem_foldl_insertNew ts, mem_insertNew, List.mem_cons]
      tauto

theorem nodup_foldl_insertNew {α : Type} [DecidableEq α] :
    ∀ (ls init : List α), init.Nodup →
      (ls.foldl (fun l t => insertNew t l) init).Nodup
  | [], _, h => h
  | _ :: ts, _, h => nodup_foldl_insertNew ts _ (nodup_insertNew h)

theorem mem_seenInit :
    ∀ (ts : List Triple) (init : List String) (x : String),
      x ∈ ts.foldl (fun l t => insertNew t.tail (insertNew t.head l)) init ↔
        x ∈ init ∨ ∃ t ∈ ts, x = t.head ∨ x = t.tail
  | [], init, x => by simp
  | t :: ts, init, x => by
      rw [List.foldl_cons, mem_seenInit ts, mem_insertNew, mem_insertNew]
      simp only [List.mem_cons]
      constructor
      · rintro ((h | h | h) | ⟨u, hu, h⟩)
        · exact Or.inr ⟨t, Or.inl rfl, Or.inr h⟩
        · exact Or.inr ⟨t, Or.inl rfl, Or.inl h⟩
        · exact Or.inl h
        · exact Or.inr ⟨u, Or.inr hu, h⟩
      · rintro (h | ⟨u, rfl | hu, h⟩)
        · exact Or.inl (Or.inr (Or.inr h))
        · rcases h with h | h
          · exact Or.inl (Or.inr (Or.inl h))
          · exact Or.inl (Or.inl h)
        · exact Or.inr ⟨u, hu, h⟩

theorem mem_sortedPairList {x a b : String} :
    x ∈ sortedPairList a b ↔ x = a ∨ x = b := by
  rw [sortedPairList]
  split
  · simp
  · simp [or_comm]

theorem processNeighbor_fst_mono {s : State} {node : String}
    {acc : List Triple × List String} {nb : String} {t : Triple} (h : t ∈ acc.1) :
    t ∈ (processNeighbor s node acc nb).1 := by
  rw [processNeighbor]
  by_cases hc : nb ∈ acc.2
  · rwa [if_pos hc]
  · rw [if_neg hc]
    rcases h1 : relationOf s node nb with _ | r1 <;>
      rcases h2 : relationOf s nb node with _ | r2 <;>
        simp [h1, h2, mem_insertNew, h]

theorem foldl_processNeighbor_fst_mono {s : State} {node : String} :
    ∀ (nbs : List String) (acc : List Triple × List String) (t : Triple),
      t ∈ acc.1 → t ∈ (nbs.foldl (processNeighbor s node) acc).1
  | [], _, _, h => h
  | _ :: nbs, acc, t, h =>
      foldl_processNeighbor_fst_mono nbs _ t (processNeighbor_fst_mono h)

theorem processNeighbor_snd {s : State} {node : String}
    {acc : List Triple × List String} {nb : String} {x : String}
    (h : x ∈ (processNeighbor s node acc nb).2) : x ∈ acc.2 ∨ x = nb := by
  rw [processNeighbor] at h
  by_cases hc : nb ∈ acc.2
  · rw [if_pos hc] at h
    exact Or.inl h
  · rw [if_neg hc] at h
    dsimp only at h
    rw [List.mem_append, List.mem_singleton] at h
    exact h

theorem foldl_processNeighbor_snd {s : State} {node : String} :
    ∀ (nbs : List String) (acc : List Triple × List String) (x : String),
      x ∈ (nbs.foldl (processNeighbor s node) acc).2 → x ∈ acc.2 ∨ x ∈ nbs
  | [], _, _, h => Or.inl h
  | nb :: nbs, acc, x, h => by
      rcases foldl_processNeighbor_snd nbs _ x h with h' | h'
      · rcases processNeighbor_snd h' with h'' | h''
        · exact Or.inl h''
        · exact Or.inr (h'' ▸ List.mem_cons_self _ _)
      · exact Or.inr (List.mem_cons_of_mem _ h')

theorem foldl_processNeighbor_discovers {s : State} {node r : String} :
    ∀ (nbs : List String) (acc : List Triple × List String) (X : String),
      nbs.Nodup → X ∈ nbs → X ∉ acc.2 → relationOf s X node = some r →
        Triple.mk X r node ∈ (nbs.foldl (processNeighbor s node) acc).1
  | [], _, X, _, hX, _, _ => absurd hX (List.not_mem_nil X)
  | nb :: nbs, acc, X, hnd, hX, hseen, hrel => by
      rw [List.foldl_cons]
      rcases List.mem_cons.mp hX with rfl | hX'
      · apply foldl_processNeighbor_fst_mono
        rw [processNeighbor, if_neg hseen]
        rcases h1 : relationOf s node X with _ | r1 <;>
          simp [h1, hrel, mem_insertNew]
      · have hnd' := (List.nodup_cons.mp hnd).2
        have hne : X ≠ nb := fun he => (List.nodup_cons.mp hnd).1 (he ▸ hX')
        refine foldl_processNeighbor_discovers nbs _ X hnd' hX' ?_ hrel
        intro hmem
        rcases processNeighbor_snd hmem with h' | h'
        · exact hseen h'
        · exact hne h'

theorem processNeighbor_fst_sub {s : State} {node : String}
    {acc : List Triple × List String} {nb : String} {t : Triple}
    (h : t ∈ (processNeighbor s node acc nb).1) :
    t ∈ acc.1 ∨ relationOf s t.head t.tail = some t.relation := by
  rw [processNeighbor] at h
  by_cases hc : nb ∈ acc.2
  · rw [if_pos hc] at h
    exact Or.inl h
  · rw [if_neg hc] at h
    dsimp only at h
    rcases h1 : relationOf s node nb with _ | r1 <;>
      rcases h2 : relationOf s nb node with _ | r2 <;>
        rw [h1, h2] at h <;> dsimp only at h
    · exact Or.inl h
    · rcases mem_insertNew.mp h with rfl | h'
      · exact Or.inr h2
      · exact Or.inl h'
    · rcases mem_insertNew.mp h with rfl | h'
      · exact Or.inr h1
      · exact Or.inl h'
    · rcases mem_insertNew.mp h with rfl | h'
      · exact Or.inr h2
      · rcases mem_insertNew.mp h' with rfl | h''
        · exact Or.inr h1
        · exact Or.inl h''

theorem foldl_processNeighbor_fst_sub {s : State} {node : String} :
    ∀ (nbs : List String) (acc : List Triple × List String) (t : Triple),
      t ∈ (nbs.foldl (processNeighbor s node) acc).1 →
        t ∈ acc.1 ∨ relationOf s t.head t.tail = some t.relation
  | [], _, _, h => Or.inl h
  | nb :: nbs, acc, t, h => by
      rcases foldl_processNeighbor_fst_sub nbs _ t h with h' | h'
      · exact processNeighbor_fst_sub h'
      · exact Or.inr h'

theorem lookup_insertKey {α β : Type} [DecidableEq α] (k : α) (v : β) :
    ∀ l : List (α × β), lookupKey k (insertKey k v l) = some v
  | [] => by rw [insertKey, lookupKey, if_pos rfl]
  | e :: rest => by
      rw [insertKey]
      by_cases hc : e.1 = k
      · rw [if_pos hc, lookupKey, if_pos rfl]
      · rw [if_neg hc, lookupKey, if_neg hc]
        exact lookup_insertKey k v rest

theorem insertKey_insertKey {α β : Type} [DecidableEq α] (k : α) (v : β) :
    ∀ l : List (α × β), insertKey k v (insertKey k v l) = insertKey k v l
  | [] => by
      simp [insertKey]
  | e :: rest => by
      by_cases hc : e.1 = k
      · rw [insertKey, if_pos hc, insertKey, if_pos rfl]
      · rw [insertKey, if_neg hc, insertKey, if_neg hc, insertKey_insertKey k v rest]

theorem lookup_insertKey_mono {α β : Type} [DecidableEq α] (k m : α) (v : β) :
    ∀ l : List (α × β), (lookupKey k l).isSome → (lookupKey k (insertKey m v l)).isSome
  | [], h => by
      rw [lookupKey] at h
      exact absurd h (by simp)
  | e :: rest, h => by
      rw [insertKey]
      by_cases hc : e.1 = m
      · rw [if_pos hc]
        rw [lookupKey] at h ⊢
        by_cases hk : m = k
        · rw [if_pos hk]
          simp
        · rw [if_neg hk]
          rw [← hc] at hk
          rw [if_neg hk] at h
          exact h
      · rw [if_neg hc]
        rw [lookupKey] at h ⊢
        by_cases hk : e.1 = k
        · rw [if_pos hk]
          simp
        · rw [if_neg hk] at h ⊢
          exact lookup_insertKey_mono k m v rest h

theorem addNodeEmbs_graph (embedP : String → Option Vec) :
    ∀ (ns : List String) (s : State),
      ((addNodeEmbs embedP ns s).1).graph = s.graph
  | [], _ => rfl
  | n :: ns, s => by
      rw [addNodeEmbs]
      cases hl : lookupKey n s.nodeEmb with
      | some v => exact addNodeEmbs_graph embedP ns s
      | none =>
          cases he : computeEmbeddingE embedP n with
          | none => rfl
          | some v => exact addNodeEmbs_graph embedP ns _

theorem addNodeEmbs_total_ok (embed : String → Vec) :
    ∀ (ns : List String) (s : State),
      (addNodeEmbs (fun x => some (embed x)) ns s).2 = .ok ()
  | [], _ => rfl
  | n :: ns, s => by
      rw [addNodeEmbs]
      cases hl : lookupKey n s.nodeEmb with
      | some v => exact addNodeEmbs_total_ok embed ns s
      | none => exact addNodeEmbs_total_ok embed ns _

theorem addNodeEmbs_present (embed : String → Vec) :
    ∀ (ns : List String) (s : State) (n : String),
      n ∈ ns ∨ (lookupKey n s.nodeEmb).isSome →
        (lookupKey n ((addNodeEmbs (fun x => some (embed x)) ns s).1).nodeEmb).isSome
  | [], s, n, h => by
      rcases h with h | h
      · exact absurd h (List.not_mem_nil n)
      · exact h
  | m :: ns, s, n, h => by
      rw [addNodeEmbs]
      cases hl : lookupKey m s.nodeEmb with
      | some v =>
          refine addNodeEmbs_present embed ns s n ?_
          rcases h with h | h
          · rcases List.mem_cons.mp h with rfl | h'
            · exact Or.inr (by rw [hl]; simp)
            · exact Or.inl h'
          · exact Or.inr h
      | none =>
          refine addNodeEmbs_present embed ns _ n ?_
          rcases h with h | h
          · rcases List.mem_cons.mp h with rfl | h'
            · refine Or.inr ?_
              dsimp only
              rw [lookup_insertKey]
              simp
            · exact Or.inl h'
          · refine Or.inr ?_
            dsimp only
            exact lookup_insertKey_mono n m _ s.nodeEmb h

theorem addNodeEmbs_skip (embedP : String → Option Vec) :
    ∀ (ns : List String) (s : State),
      (∀ n ∈ ns, (lookupKey n s.nodeEmb).isSome) →
        addNodeEmbs embedP ns s = (s, .ok ())
  | [], _, _ => rfl
  | n :: ns, s, h => by
      rw [addNodeEmbs]
      obtain ⟨v, hv⟩ := Option.isSome_iff_exists.mp (h n (List.mem_cons_self _ _))
      rw [hv]
      exact addNodeEmbs_skip embedP ns s fun m hm => h m (List.mem_cons_of_mem _ hm)

theorem addTripleE_graph (embedP : String → Option Vec) (s : State)
    (head relation tail : String) :
    ((addTripleE embedP s head relation tail).1).graph
      = insertKey (head, tail) relation s.graph := by
  rw [addTripleE]
  rcases hm : addNodeEmbs embedP (sortedPairList head tail)
      { s with graph := insertKey (head, tail) relation s.graph } with ⟨s2, res⟩
  have hg : s2.graph = insertKey (head, tail) relation s.graph := by
    have h := addNodeEmbs_graph embedP (sortedPairList head tail)
      { s with graph := insertKey (head, tail) relation s.graph }
    rw [hm] at h
    exact h
  cases res with
  | error e => exact hg
  | ok u =>
      cases he : computeEmbeddingE embedP (head ++ " " ++ relation ++ " " ++ tail) with
      | none => exact hg
      | some v => exact hg

theorem addTriple_graph (embed : String → Vec) (s : State)
    (head relation tail : String) :
    (addTriple embed s head relation tail).graph
      = insertKey (head, tail) relation s.graph :=
  addTripleE_graph _ s head relation tail

theorem addTriple_eq (embed : String → Vec) (s : State) (h r t : String) :
    addTriple embed s h r t =
      { (addNodeEmbs (fun x => some (embed x)) (sortedPairList h t)
            { s with graph := insertKey (h, t) r s.graph }).1 with
        edgeEmb := insertKey (h, t)
            (embed (normalizeText (h ++ " " ++ r ++ " " ++ t)))
            ((addNodeEmbs (fun x => some (embed x)) (sortedPairList h t)
              { s with graph := insertKey (h, t) r s.graph }).1).edgeEmb,
        tripleToEdge := insertKey (Triple.mk h r t) (h, t)
            ((addNodeEmbs (fun x => some (embed x)) (sortedPairList h t)
              { s with graph := insertKey (h, t) r s.graph }).1).tripleToEdge } := by
  rw [addTriple, addTripleE]
  rcases hm : addNodeEmbs (fun x => some (embed x)) (sortedPairList h t)
      { s with graph := insertKey (h, t) r s.graph } with ⟨s2, res⟩
  have hres : res = .ok () := by
    have h2 := addNodeEmbs_total_ok embed (sortedPairList h t)
      { s with graph := insertKey (h, t) r s.graph }
    rw [hm] at h2
    exact h2
  subst hres
  rfl

theorem neighbors_take_nodup (s : State) (node : String) (cap : ℕ) :
    ((List.insertionSort strLE (successors s node)).take cap).Nodup :=
  List.Nodup.sublist (List.take_sublist _ _)
    ((List.perm_insertionSort strLE _).nodup_iff.mpr (List.nodup_dedup _))

theorem processNode_eq_ok {s : State} {cap : ℕ} {acc : List Triple × List String}
    {node : String} (h : node ∈ graphNodes s) :
    processNode s cap acc node
      = .ok (((List.insertionSort strLE (successors s node)).take cap).foldl
          (processNeighbor s node) acc) := by
  rw [processNode, neighborsE, if_pos h]

theorem processNode_ok_elim {s : State} {cap : ℕ} {acc acc' : List Triple × List String}
    {node : String} (h : processNode s cap acc node = .ok acc') :
    node ∈ graphNodes s ∧
    acc' = ((List.insertionSort strLE (successors s node)).take cap).foldl
        (processNeighbor s node) acc := by
  rw [processNode, neighborsE] at h
  by_cases hn : node ∈ graphNodes s
  · rw [if_pos hn] at h
    exact ⟨hn, (Except.ok.inj h).symm⟩
  · rw [if_neg hn] at h
    exact absurd h (by simp)

theorem processNode_ok_fst_mono {s : State} {cap : ℕ}
    {acc acc' : List Triple × List String} {node : String}
    (h : processNode s cap acc node = .ok acc') {t : Triple} (ht : t ∈ acc.1) :
    t ∈ acc'.1 := by
  rw [(processNode_ok_elim h).2]
  exact foldl_processNeighbor_fst_mono _ _ _ ht

theorem processNode_ok_snd {s : State} {cap : ℕ}
    {acc acc' : List Triple × List String} {node : String}
    (h : processNode s cap acc node = .ok acc') {x : String} (hx : x ∈ acc'.2) :
    x ∈ acc.2 ∨ x ∈ (List.insertionSort strLE (successors s node)).take cap := by
  rw [(processNode_ok_elim h).2] at hx
  exact foldl_processNeighbor_snd _ _ _ hx

theorem processNode_ok_discovers {s : State} {cap : ℕ}
    {acc acc' : List Triple × List String} {node X r : String}
    (h : processNode s cap acc node = .ok acc')
    (hX : X ∈ (List.insertionSort strLE (successors s node)).take cap)
    (hseen : X ∉ acc.2) (hrel : relationOf s X node = some r) :
    Triple.mk X r node ∈ acc'.1 := by
  rw [(processNode_ok_elim h).2]
  exact foldl_processNeighbor_discovers _ _ _ (neighbors_take_nodup s node cap) hX hseen hrel

theorem processNode_ok_fst_sub {s : State} {cap : ℕ}
    {acc acc' : List Triple × List String} {node : String}
    (h : processNode s cap acc node = .ok acc') {t : Triple} (ht : t ∈ acc'.1) :
    t ∈ acc.1 ∨ relationOf s t.head t.tail = some t.relation := by
  rw [(processNode_ok_elim h).2] at ht
  exact foldl_processNeighbor_fst_sub _ _ _ ht

theorem processNodes_nil (s : State) (cap : ℕ) (acc : List Triple × List String) :
    processNodes s cap [] acc = .ok acc := rfl

theorem processNodes_cons_ok {s : State} {cap : ℕ} {n : String} {ns : List String}
    {acc acc₁ : List Triple × List String} (h : processNode s cap acc n = .ok acc₁) :
    processNodes s cap (n :: ns) acc = processNodes s cap ns acc₁ := by
  rw [processNodes, h]

theorem processNodes_ok_fst_mono {s : State} {cap : ℕ} :
    ∀ (ns : List String) (acc acc' : List Triple × List String),
      processNodes s cap ns acc = .ok acc' → ∀ t ∈ acc.1, t ∈ acc'.1
  | [], acc, acc', h, t, ht => by
      rw [processNodes_nil] at h
      rwa [← Except.ok.inj h]
  | n :: ns, acc, acc', h, t, ht => by
      rw [processNodes] at h
      rcases hm : processNode s cap acc n with e | acc₁ <;> rw [hm] at h
      · exact absurd h (by simp)
      · exact processNodes_ok_fst_mono ns acc₁ acc' h t (processNode_ok_fst_mono hm ht)

theorem processNodes_ok_fst_sub {s : State} {cap : ℕ} :
    ∀ (ns : List String) (acc acc' : List Triple × List String),
      processNodes s cap ns acc = .ok acc' → ∀ t ∈ acc'.1,
        t ∈ acc.1 ∨ relationOf s t.head t.tail = some t.relation
  | [], acc, acc', h, t, ht => by
      rw [processNodes_nil] at h
      exact Or.inl (by rwa [Except.ok.inj h])
  | n :: ns, acc, acc', h, t, ht => by
      rw [processNodes] at h
      rcases hm : processNode s cap acc n with e | acc₁ <;> rw [hm] at h
      · exact absurd h (by simp)
      · rcases processNodes_ok_fst_sub ns acc₁ acc' h t ht with h' | h'
        · exact processNode_ok_fst_sub hm h'
        · exact Or.inr h'

theorem processTriples_nil (s : State) (cap : ℕ) (acc : List Triple × List String) :
    processTriples s cap [] acc = .ok acc := rfl

theorem processTriples_cons_ok {s : State} {cap : ℕ} {t : Triple} {ts : List Triple}
    {acc acc₁ : List Triple × List String}
    (h : processNodes s cap (sortedPairList t.head t.tail) acc = .ok acc₁) :
    processTriples s cap (t :: ts) acc = processTriples s cap ts acc₁ := by
  rw [processTriples, h]

theorem processTriples_ok_fst_mono {s : State} {cap : ℕ} :
    ∀ (ts : List Triple) (acc acc' : List Triple × List String),
      processTriples s cap ts acc = .ok acc' → ∀ x ∈ acc.1, x ∈ acc'.1
  | [], acc, acc', h, x, hx => by
      rw [processTriples_nil] at h
      rwa [← Except.ok.inj h]
  | t :: ts, acc, acc', h, x, hx => by
      rw [processTriples] at h
      rcases hm : processNodes s cap (sortedPairList t.head t.tail) acc with e | acc₁ <;>
        rw [hm] at h
      · exact absurd h (by simp)
      · exact processTriples_ok_fst_mono ts acc₁ acc' h x
          (processNodes_ok_fst_mono _ acc acc₁ hm x hx)

theorem processTriples_ok_fst_sub {s : State} {cap : ℕ} :
    ∀ (ts : List Triple) (acc acc' : List Triple × List String),
      processTriples s cap ts acc = .ok acc' → ∀ x ∈ acc'.1,
        x ∈ acc.1 ∨ relationOf s x.head x.tail = some x.relation
  | [], acc, acc', h, x, hx => by
      rw [processTriples_nil] at h
      exact Or.inl (by rwa [Except.ok.inj h])
  | t :: ts, acc, acc', h, x, hx => by
      rw [processTriples] at h
      rcases hm : processNodes s cap (sortedPairList t.head t.tail) acc with e | acc₁ <;>
        rw [hm] at h
      · exact absurd h (by simp)
      · rcases processTriples_ok_fst_sub ts acc₁ acc' h x hx with h' | h'
        · exact processNodes_ok_fst_sub _ acc acc₁ hm x h'
        · exact Or.inr h'

theorem oneHop_eq {s : State} {cap : ℕ} {st : List Triple × List String}
    {acc' : List Triple × List String}
    (h : processTriples s cap (List.insertionSort tripleLE st.1) ([], st.2) = .ok acc') :
    oneHop s cap st = .ok (acc'.1.foldl (fun l t => insertNew t l) st.1, acc'.2) := by
  rw [oneHop, h]

theorem oneHop_ok_fst_mono {s : State} {cap : ℕ} {st st' : List Triple × List String}
    (h : oneHop s cap st = .ok st') : ∀ t ∈ st.1, t ∈ st'.1 := by
  rw [oneHop] at h
  rcases hm : processTriples s cap (List.insertionSort tripleLE st.1) ([], st.2)
    with e | p <;> rw [hm] at h
  · exact absurd h (by simp)
  · obtain ⟨nt, seen⟩ := p
    intro t ht
    rw [← Except.ok.inj h]
    exact (mem_foldl_insertNew _ _ _).mpr (Or.inl ht)

theorem oneHop_ok_fst_sub {s : State} {cap : ℕ} {st st' : List Triple × List String}
    (h : oneHop s cap st = .ok st') : ∀ t ∈ st'.1,
      t ∈ st.1 ∨ relationOf s t.head t.tail = some t.relation := by
  rw [oneHop] at h
  rcases hm : processTriples s cap (List.insertionSort tripleLE st.1) ([], st.2)
    with e | p <;> rw [hm] at h
  · exact absurd h (by simp)
  · obtain ⟨nt, seen⟩ := p
    intro t ht
    rw [← Except.ok.inj h] at ht
    rcases (mem_foldl_insertNew _ _ _).mp ht with h' | h'
    · exact Or.inl h'
    · rcases processTriples_ok_fst_sub _ _ _ hm t h' with h'' | h''
      · exact absurd h'' (List.not_mem_nil t)
      · exact Or.inr h''

theorem expandLoop_zero (s : State) (cap : ℕ) (st : List Triple × List String) :
    expandLoop s cap 0 st = .ok st := rfl

theorem expandLoop_succ_ok {s : State} {cap n : ℕ} {st st₁ : List Triple × List String}
    (h : oneHop s cap st = .ok st₁) :
    expandLoop s cap (n + 1) st = expandLoop s cap n st₁ := by
  rw [expandLoop, h]

theorem expandLoop_ok_fst_mono {s : State} {cap : ℕ} :
    ∀ (hops : ℕ) (st st' : List Triple × List String),
      expandLoop s cap hops st = .ok st' → ∀ t ∈ st.1, t ∈ st'.1
  | 0, st, st', h, t, ht => by
      rw [expandLoop_zero] at h
      rwa [← Except.ok.inj h]
  | n + 1, st, st', h, t, ht => by
      rw [expandLoop] at h
      rcases hm : oneHop s cap st with e | st₁ <;> rw [hm] at h
      · exact absurd h (by simp)
      · exact expandLoop_ok_fst_mono n st₁ st' h t (oneHop_ok_fst_mono hm t ht)

theorem expandLoop_ok_fst_sub {s : State} {cap : ℕ} :
    ∀ (hops : ℕ) (st st' : List Triple × List String),
      expandLoop s cap hops st = .ok st' → ∀ t ∈ st'.1,
        t ∈ st.1 ∨ relationOf s t.head t.tail = some t.relation
  | 0, st, st', h, t, ht => by
      rw [expandLoop_zero] at h
      exact Or.inl (by rwa [Except.ok.inj h])
  | n + 1, st, st', h, t, ht => by
      rw [expandLoop] at h
      rcases hm : oneHop s cap st with e | st₁ <;> rw [hm] at h
      · exact absurd h (by simp)
      · rcases expandLoop_ok_fst_sub n st₁ st' h t ht with h' | h'
        · exact oneHop_ok_fst_sub hm t h'
        · exact Or.inr h'

theorem expandSubgraph_eq_ok {s : State} {seed : List Triple} {hops cap : ℕ}
    {stF : List Triple × List String}
    (h : expandLoop s cap hops
        (seed.foldl (fun l t => insertNew t l) [],
          seed.foldl (fun l t => insertNew t.tail (insertNew t.head l)) []) = .ok stF) :
    expandSubgraph s seed hops cap = .ok (List.insertionSort tripleLE stF.1) := by
  rw [expandSubgraph, h]

theorem expandSubgraph_ok_elim {s : State} {seed : List Triple} {hops cap : ℕ}
    {l : List Triple} (h : expandSubgraph s seed hops cap = .ok l) :
    ∃ stF, expandLoop s cap hops
        (seed.foldl (fun lst t => insertNew t lst) [],
          seed.foldl (fun lst t => insertNew t.tail (insertNew t.head lst)) []) = .ok stF ∧
      l = List.insertionSort tripleLE stF.1 := by
  rw [expandSubgraph] at h
  rcases hm : expandLoop s cap hops
      (seed.foldl (fun lst t => insertNew t lst) [],
        seed.foldl (fun lst t => insertNew t.tail (insertNew t.head lst)) [])
    with e | p <;> rw [hm] at h
  · exact absurd h (by simp)
  · obtain ⟨lf, seenf⟩ := p
    exact ⟨(lf, seenf), hm, (Except.ok.inj h).symm⟩

theorem processNode_cap0 {s : State} {acc : List Triple × List String} {node : String}
    (h : node ∈ graphNodes s) : processNode s 0 acc node = .ok acc := by
  rw [processNode_eq_ok h, List.take_zero, List.foldl_nil]

theorem processNodes_cap0 {s : State} :
    ∀ (ns : List String) (acc : List Triple × List String),
      (∀ n ∈ ns, n ∈ graphNodes s) → processNodes s 0 ns acc = .ok acc
  | [], acc, _ => rfl
  | n :: ns, acc, h => by
      rw [processNodes_cons_ok (processNode_cap0 (h n (List.mem_cons_self _ _)))]
      exact processNodes_cap0 ns acc fun m hm => h m (List.mem_cons_of_mem _ hm)

theorem processTriples_cap0 {s : State} :
    ∀ (ts : List Triple) (acc : List Triple × List String),
      (∀ t ∈ ts, t.head ∈ graphNodes s ∧ t.tail ∈ graphNodes s) →
        processTriples s 0 ts acc = .ok acc
  | [], acc, _ => rfl
  | t :: ts, acc, h => by
      have hn : ∀ n ∈ sortedPairList t.head t.tail, n ∈ graphNodes s := by
        intro n hn
        rcases mem_sortedPairList.mp hn with rfl | rfl
        · exact (h t (List.mem_cons_self _ _)).1
        · exact (h t (List.mem_cons_self _ _)).2
      rw [processTriples_cons_ok (processNodes_cap0 _ acc hn)]
      exact processTriples_cap0 ts acc fun u hu => h u (List.mem_cons_of_mem _ hu)

theorem oneHop_cap0 {s : State} {st : List Triple × List String}
    (h : ∀ t ∈ st.1, t.head ∈ graphNodes s ∧ t.tail ∈ graphNodes s) :
    oneHop s 0 st = .ok st := by
  have hsnap : ∀ t ∈ List.insertionSort tripleLE st.1,
      t.head ∈ graphNodes s ∧ t.tail ∈ graphNodes s := by
    intro t ht
    rw [List.mem_insertionSort] at ht
    exact h t ht
  rw [oneHop, processTriples_cap0 _ _ hsnap]
  rfl

theorem expandLoop_cap0 {s : State} {st : List Triple × List String}
    (h : ∀ t ∈ st.1, t.head ∈ graphNodes s ∧ t.tail ∈ graphNodes s) :
    ∀ hops : ℕ, expandLoop s 0 hops st = .ok st
  | 0 => rfl
  | n + 1 => by
      rw [expandLoop_succ_ok (oneHop_cap0 h)]
      exact expandLoop_cap0 h n

theorem mem_edgeKeys {s : State} {k : String × String} :
    k ∈ edgeKeys s ↔ k ∈ s.edgeEmb.map Prod.fst := by
  rw [edgeKeys, List.mem_insertionSort, List.mem_dedup]

theorem edgeKeys_nodup (s : State) : (edgeKeys s).Nodup :=
  (List.perm_insertionSort pairLE _).nodup_iff.mpr (List.nodup_dedup _)

theorem tripleOfKey_pair (s : State) (k : String × String) :
    ((tripleOfKey s k).head, (tripleOfKey s k).tail) = k := rfl

theorem tripleOfKey_inj {s : State} {k k' : String × String}
    (h : tripleOfKey s k = tripleOfKey s k') : k = k' := by
  have h1 := congrArg Triple.head h
  have h2 := congrArg Triple.tail h
  exact Prod.ext h1 h2

theorem stored_tripleOfKey {s : State} {k : String × String} (h : k ∈ edgeKeys s) :
    storedTriple s (tripleOfKey s k) :=
  ⟨mem_edgeKeys.mp h, rfl⟩

theorem tripleOfKey_of_stored {s : State} {t : Triple} (h : storedTriple s t) :
    tripleOfKey s (t.head, t.tail) = t := by
  obtain ⟨-, h2⟩ := h
  cases t
  simp only [tripleOfKey]
  rw [← h2]

theorem scanEdges_maxScore_le (s : State) (f : String × String → ℚ) (θ : ℚ) :
    ∀ (ks : List (String × String)) (acc : ScanAcc),
      acc.maxScore ≤ (scanEdges s f θ ks acc).maxScore
  | [], _ => le_rfl
  | k :: ks, acc => by
      simp only [scanEdges]
      refine le_trans ?_ (scanEdges_maxScore_le s f θ ks _)
      dsimp only
      split
      · exact le_of_lt (by assumption)
      · exact le_rfl

theorem scanEdges_score_le (s : State) (f : String × String → ℚ) (θ : ℚ) :
    ∀ (ks : List (String × String)) (acc : ScanAcc) (k : String × String),
      k ∈ ks → f k ≤ (scanEdges s f θ ks acc).maxScore
  | k₀ :: ks, acc, k, hk => by
      rcases List.mem_cons.mp hk with h | h
      · subst h
        simp only [scanEdges]
        refine le_trans ?_ (scanEdges_maxScore_le s f θ ks _)
        dsimp only
        split
        · exact le_rfl
        · exact le_of_not_lt (by assumption)
      · simp only [scanEdges]
        exact scanEdges_score_le s f θ ks _ k h

theorem scanEdges_maxTriple_of_eq (s : State) (f : String × String → ℚ) (θ : ℚ) :
    ∀ (ks : List (String × String)) (acc : ScanAcc),
      (scanEdges s f θ ks acc).maxScore = acc.maxScore →
        (scanEdges s f θ ks acc).maxTriple = acc.maxTriple
  | [], _, _ => rfl
  | k :: ks, acc, h => by
      by_cases hlt : acc.maxScore < f k
      · exfalso
        have hstep : f k ≤ (scanEdges s f θ (k :: ks) acc).maxScore :=
          scanEdges_score_le s f θ (k :: ks) acc k (List.mem_cons_self _ _)
        rw [h] at hstep
        exact absurd hlt (not_lt.mpr hstep)
      · simp only [scanEdges, if_neg hlt] at h ⊢
        exact scanEdges_maxTriple_of_eq s f θ ks _ h

theorem scanEdges_maxTriple_achieves (s : State) (f : String × String → ℚ) (θ : ℚ) :
    ∀ (ks : List (String × String)) (acc : ScanAcc),
      acc.maxScore < (scanEdges s f θ ks acc).maxScore →
        ∃ k ∈ ks, (scanEdges s f θ ks acc).maxTriple = some (tripleOfKey s k) ∧
          f k = (scanEdges s f θ ks acc).maxScore
  | [], _, h => absurd h (lt_irrefl _)
  | k :: ks, acc, h => by
      simp only [scanEdges] at h ⊢
      set acc' : ScanAcc :=
        ⟨if acc.maxScore < f k then f k else acc.maxScore,
          if acc.maxScore < f k then some (tripleOfKey s k) else acc.maxTriple,
          if θ ≤ f k then acc.sims ++ [(tripleOfKey s k, f k)] else acc.sims⟩ with hacc
      rcases lt_or_eq_of_le (scanEdges_maxScore_le s f θ ks acc') with hlt | heq
      · obtain ⟨k', hk', hmt, hsc⟩ := scanEdges_maxTriple_achieves s f θ ks acc' hlt
        exact ⟨k', List.mem_cons_of_mem _ hk', hmt, hsc⟩
      · have hmt := scanEdges_maxTriple_of_eq s f θ ks acc' heq.symm
        rw [← heq] at h
        by_cases hcase : acc.maxScore < f k
        · refine ⟨k, List.mem_cons_self _ _, ?_, ?_⟩
          · rw [hmt, hacc]
            dsimp only
            rw [if_pos hcase]
          · rw [← heq, hacc]
            dsimp only
            rw [if_pos hcase]
        · exfalso
          have : acc'.maxScore = acc.maxScore := by
            rw [hacc]; dsimp only; rw [if_neg hcase]
          rw [this] at h
          exact absurd h (lt_irrefl _)

theorem scanEdges_sims (s : State) (f : String × String → ℚ) (θ : ℚ) :
    ∀ (ks : List (String × String)) (acc : ScanAcc),
      (scanEdges s f θ ks acc).sims = acc.sims ++
        ks.filterMap (fun k => if θ ≤ f k then some (tripleOfKey s k, f k) else none)
  | [], acc => by simp [scanEdges]
  | k :: ks, acc => by
      simp only [scanEdges, List.filterMap_cons]
      rw [scanEdges_sims s f θ ks]
      dsimp only
      by_cases hc : θ ≤ f k
      · rw [if_pos hc, if_pos hc, List.append_assoc, List.singleton_append]
      · rw [if_neg hc, if_neg hc]

theorem scanEdges_max_indep (s : State) (f : String × String → ℚ) (θ₁ θ₂ : ℚ) :
    ∀ (ks : List (String × String)) (m : ℚ) (mt : Option Triple)
      (sims₁ sims₂ : List (Triple × ℚ)),
      (scanEdges s f θ₁ ks ⟨m, mt, sims₁⟩).maxScore
          = (scanEdges s f θ₂ ks ⟨m, mt, sims₂⟩).maxScore ∧
      (scanEdges s f θ₁ ks ⟨m, mt, sims₁⟩).maxTriple
          = (scanEdges s f θ₂ ks ⟨m, mt, sims₂⟩).maxTriple
  | [], _, _, _, _ => ⟨rfl, rfl⟩
  | k :: ks, m, mt, sims₁, sims₂ => by
      simp only [scanEdges]
      exact scanEdges_max_indep s f θ₁ θ₂ ks _ _ _ _

/-- C1 (amended): `retrieve(query, topK, threshold)` returns, besides the
ranked list, diagnostic outputs `bestScore`/`bestTriple` computed over all
stored edges independently of the threshold and the cutoff, and when the
store has no edges it returns an empty ranked list and no best triple;
however, because `max_score` is initialized to `-1` and only updated on a
strictly greater score, the best triple is only guaranteed to be reported
(as a maximum-scoring stored triple) when some stored edge scores strictly
above `-1`; when every score is exactly `-1` (the minimum cosine value) no
best triple is reported (see the counterexample). -/
theorem c1_retrieve_best_amended (cos : Vec → Vec → ℚ) (embedP : String → Vec)
    (s : State) (query : String) (top_k : ℕ) (θ : ℚ)
    (hex : ∃ k ∈ edgeKeys s, -1 < queryScore cos embedP s query k) :
    (∀ s₀ : State, s₀.edgeEmb = [] →
        retrieveRelevantSubgraph cos embedP s₀ query top_k θ = .bare []) ∧
    (∀ (θ' : ℚ) (top_k' : ℕ),
        (retrieveRelevantSubgraph cos embedP s query top_k' θ').bestTriple
            = (retrieveRelevantSubgraph cos embedP s query top_k θ).bestTriple ∧
        (retrieveRelevantSubgraph cos embedP s query top_k' θ').bestScore
            = (retrieveRelevantSubgraph cos embedP s query top_k θ).bestScore) ∧
    (∃ t, (retrieveRelevantSubgraph cos embedP s query top_k θ).bestTriple = some t ∧
        storedTriple s t ∧
        (retrieveRelevantSubgraph cos embedP s query top_k θ).bestScore
            = some (queryScore cos embedP s query (t.head, t.tail)) ∧
        ∀ k ∈ edgeKeys s, queryScore cos embedP s query k
            ≤ queryScore cos embedP s query (t.head, t.tail)) := by
  obtain ⟨k₀, hk₀, hsc₀⟩ := hex
  have hne : s.edgeEmb ≠ [] := by
    intro hnil
    rw [mem_edgeKeys, hnil] at hk₀
    exact absurd hk₀ (by simp)
  refine ⟨fun s₀ h₀ => by rw [retrieveRelevantSubgraph, if_pos h₀], ?_, ?_⟩
  · intro θ' top_k'
    rw [retrieveRelevantSubgraph, retrieveRelevantSubgraph, if_neg hne, if_neg hne]
    have h := scanEdges_max_indep s (queryScore cos embedP s query) θ' θ (edgeKeys s)
      (-1) none [] []
    exact ⟨by rw [RetrieveResult.bestTriple, RetrieveResult.bestTriple, h.2],
      by rw [RetrieveResult.bestScore, RetrieveResult.bestScore, h.1]⟩
  · rw [retrieveRelevantSubgraph, if_neg hne]
    set f := queryScore cos embedP s query with hf
    set r := scanEdges s f θ (edgeKeys s) ⟨-1, none, []⟩ with hr
    have hgt : (⟨-1, none, []⟩ : ScanAcc).maxScore < r.maxScore :=
      lt_of_lt_of_le hsc₀ (scanEdges_score_le s f θ (edgeKeys s) _ k₀ hk₀)
    obtain ⟨k, hk, hmt, hsc⟩ := scanEdges_maxTriple_achieves s f θ (edgeKeys s) _ hgt
    refine ⟨tripleOfKey s k, hmt, stored_tripleOfKey hk, ?_, ?_⟩
    · rw [RetrieveResult.bestScore, tripleOfKey_pair, hsc]
    · intro k' hk'
      rw [tripleOfKey_pair, hsc]
      exact scanEdges_score_le s f θ (edgeKeys s) _ k' hk'

theorem c1_witness :
    ∃ t, (retrieveRelevantSubgraph dotQ embedOne
            (addTriple embedOne emptyState "a" "r" "b") "q" 5 0).bestTriple = some t ∧
      storedTriple (addTriple embedOne emptyState "a" "r" "b") t ∧
      (retrieveRelevantSubgraph dotQ embedOne
            (addTriple embedOne emptyState "a" "r" "b") "q" 5 0).bestScore
          = some (queryScore dotQ embedOne
              (addTriple embedOne emptyState "a" "r" "b") "q" (t.head, t.tail)) ∧
      ∀ k ∈ edgeKeys (addTriple embedOne emptyState "a" "r" "b"),
        queryScore dotQ embedOne (addTriple embedOne emptyState "a" "r" "b") "q" k
          ≤ queryScore dotQ embedOne
              (addTriple embedOne emptyState "a" "r" "b") "q" (t.head, t.tail) :=
  (c1_retrieve_best_amended dotQ embedOne (addTriple embedOne emptyState "a" "r" "b")
    "q" 5 0
    ⟨("a", "b"), by with_unfolding_all decide, by with_unfolding_all decide⟩).2.2

/-- C1 counterexample: on a store whose single edge scores exactly `-1`
against the query (cosine of opposite unit vectors), the claim's
`bestTriple` output is `None` even though a (unique) maximum-scoring stored
triple exists — the edge even qualifies for the ranked list at threshold
`-2` — because `max_score` is initialized to `-1` and only strictly greater
scores update `max_score_triple`. -/
theorem c1_counterexample :
    storedTriple (addTriple embedOpp emptyState "a" "r" "b") ⟨"a", "r", "b"⟩ ∧
    retrieveRelevantSubgraph dotQ embedOpp (addTriple embedOpp emptyState "a" "r" "b")
        "q" 5 (-2)
      = .full [⟨"a", "r", "b"⟩] (-1) none := by
  with_unfolding_all decide

/-- C3: in `retrieve`, exactly the stored triples scoring `>= threshold`
(boundary included) are retained; the retained list is sorted by descending
score with ties broken by ascending `(head, relation, tail)` (the `rankLE`
order), contains no duplicate triples, and the returned ranked list is the
first `topK` triples of that order. -/
theorem c3_threshold_filter_sort_truncate (cos : Vec → Vec → ℚ) (embedP : String → Vec)
    (s : State) (query : String) (top_k : ℕ) (θ : ℚ) :
    ∃ full : List (Triple × ℚ),
      (retrieveRelevantSubgraph cos embedP s query top_k θ).rankedList
          = (full.take top_k).map Prod.fst ∧
      full.Sorted rankLE ∧
      (∀ t sc, (t, sc) ∈ full ↔
          (storedTriple s t ∧ sc = queryScore cos embedP s query (t.head, t.tail) ∧
            θ ≤ sc)) ∧
      (full.map Prod.fst).Nodup := by
  by_cases hne : s.edgeEmb = []
  · refine ⟨[], ?_, List.sorted_nil, fun t sc => ?_, List.nodup_nil⟩
    · rw [retrieveRelevantSubgraph, if_pos hne]
      simp [RetrieveResult.rankedList]
    · simp only [List.not_mem_nil, false_iff]
      rintro ⟨⟨hmem, -⟩, -, -⟩
      rw [hne] at hmem
      exact absurd hmem (by simp)
  · set f := queryScore cos embedP s query with hf
    set g := fun k => if θ ≤ f k then some (tripleOfKey s k, f k) else none with hg
    have hsims : (scanEdges s f θ (edgeKeys s) ⟨-1, none, []⟩).sims
        = (edgeKeys s).filterMap g := by
      rw [scanEdges_sims]
      simp
    refine ⟨List.insertionSort rankLE (scanEdges s f θ (edgeKeys s) ⟨-1, none, []⟩).sims,
      ?_, List.sorted_insertionSort _ _, fun t sc => ?_, ?_⟩
    · rw [retrieveRelevantSubgraph, if_neg hne]
      rfl
    · rw [List.mem_insertionSort, hsims, List.mem_filterMap]
      constructor
      · rintro ⟨k, hk, hgk⟩
        rw [hg] at hgk
        dsimp only at hgk
        by_cases hc : θ ≤ f k
        · rw [if_pos hc] at hgk
          have hpair := Option.some_injective _ hgk
          obtain ⟨h1, h2⟩ := Prod.ext_iff.mp hpair
          dsimp only at h1 h2
          subst h1
          subst h2
          refine ⟨stored_tripleOfKey hk, ?_, ?_⟩
          · rw [tripleOfKey_pair]
          · exact hc
        · rw [if_neg hc] at hgk
          exact absurd hgk (by simp)
      · rintro ⟨hst, hsc, hth⟩
        refine ⟨(t.head, t.tail), mem_edgeKeys.mpr hst.1, ?_⟩
        rw [hg]
        dsimp only
        rw [tripleOfKey_of_stored hst, ← hsc, if_pos hth]
    · have hmap : ((scanEdges s f θ (edgeKeys s) ⟨-1, none, []⟩).sims).map Prod.fst
          = (edgeKeys s).filterMap
              (fun k => if θ ≤ f k then some (tripleOfKey s k) else none) := by
        rw [hsims, List.map_filterMap]
        congr 1
        funext k
        rw [hg]
        dsimp only
        split
        · rfl
        · rfl
      have hnd : (((scanEdges s f θ (edgeKeys s) ⟨-1, none, []⟩).sims).map Prod.fst).Nodup := by
        rw [hmap]
        refine List.Nodup.filterMap ?_ (edgeKeys_nodup s)
        intro a a' b hb hb'
        by_cases hca : θ ≤ f a
        · rw [if_pos hca] at hb
          by_cases hca' : θ ≤ f a'
          · rw [if_pos hca'] at hb'
            have h1 := Option.mem_some_iff.mp hb
            have h2 := Option.mem_some_iff.mp hb'
            exact tripleOfKey_inj (h1.symm ▸ h2.symm ▸ rfl : tripleOfKey s a = tripleOfKey s a')
          · rw [if_neg hca'] at hb'
            exact absurd hb' (by simp)
        · rw [if_neg hca] at hb
          exact absurd hb (by simp)
      refine List.Perm.nodup ?_ hnd
      exact (List.Perm.map Prod.fst (List.perm_insertionSort rankLE _)).symm

theorem State.ext' {a b : State} (h1 : a.graph = b.graph) (h2 : a.nodeEmb = b.nodeEmb)
    (h3 : a.edgeEmb = b.edgeEmb) (h4 : a.tripleToEdge = b.tripleToEdge) : a = b := by
  cases a
  cases b
  cases h1
  cases h2
  cases h3
  cases h4
  rfl

theorem addTriple_nodeEmb_present (embed : String → Vec) (s : State) (A r1 B : String) :
    ∀ n ∈ sortedPairList A B, (lookupKey n (addTriple embed s A r1 B).nodeEmb).isSome := by
  intro n hn
  rw [addTriple_eq]
  exact addNodeEmbs_present embed _ _ n (Or.inl hn)

theorem addTriple_nodeEmb (embed : String → Vec) (s : State) (A r1 B : String) :
    (addTriple embed s A r1 B).nodeEmb
      = ((addNodeEmbs (fun x => some (embed x)) (sortedPairList A B)
          { s with graph := insertKey (A, B) r1 s.graph }).1).nodeEmb := by
  rw [addTriple_eq]

theorem addTriple_edgeEmb (embed : String → Vec) (s : State) (A r1 B : String) :
    (addTriple embed s A r1 B).edgeEmb
      = insertKey (A, B) (embed (normalizeText (A ++ " " ++ r1 ++ " " ++ B)))
          ((addNodeEmbs (fun x => some (embed x)) (sortedPairList A B)
            { s with graph := insertKey (A, B) r1 s.graph }).1).edgeEmb := by
  rw [addTriple_eq]

theorem addTriple_tripleToEdge (embed : String → Vec) (s : State) (A r1 B : String) :
    (addTriple embed s A r1 B).tripleToEdge
      = insertKey (Triple.mk A r1 B) (A, B)
          ((addNodeEmbs (fun x => some (embed x)) (sortedPairList A B)
            { s with graph := insertKey (A, B) r1 s.graph }).1).tripleToEdge := by
  rw [addTriple_eq]

theorem mem_rankedList_stored {cos : Vec → Vec → ℚ} {embedP : String → Vec} {s : State}
    {query : String} {top_k : ℕ} {θ : ℚ} {t : Triple}
    (h : t ∈ (retrieveRelevantSubgraph cos embedP s query top_k θ).rankedList) :
    storedTriple s t := by
  rw [retrieveRelevantSubgraph] at h
  by_cases hne : s.edgeEmb = []
  · rw [if_pos hne] at h
    exact absurd h (List.not_mem_nil t)
  · rw [if_neg hne] at h
    have h' : t ∈ ((List.insertionSort rankLE
        (scanEdges s (queryScore cos embedP s query) θ (edgeKeys s)
          ⟨-1, none, []⟩).sims).take top_k).map Prod.fst := h
    obtain ⟨⟨t', sc⟩, hmem, ht'⟩ := List.mem_map.mp h'
    dsimp only at ht'
    subst ht'
    have hmem2 := List.take_subset _ _ hmem
    rw [List.mem_insertionSort, scanEdges_sims] at hmem2
    rw [List.nil_append] at hmem2
    obtain ⟨k, hk, hgk⟩ := List.mem_filterMap.mp hmem2
    by_cases hc : θ ≤ queryScore cos embedP s query k
    · rw [if_pos hc] at hgk
      obtain ⟨h1, -⟩ := Prod.ext_iff.mp (Option.some_injective _ hgk)
      dsimp only at h1
      rw [← h1]
      exact stored_tripleOfKey hk
    · rw [if_neg hc] at hgk
      exact absurd hgk (by simp)

/-- C10: `add_triple(head, relation, tail)` inserts the directed edge
`head→tail` with its relation label into the graph before computing any
embedding, so for every (possibly failing) embedding provider — in
particular when the provider fails and `add` raises `ValueError` — the edge
remains committed afterward: `hasEdge(head, tail)` holds and
`relationOf(head, tail) = relation`, regardless of which embeddings were
computed. -/
theorem c10_edge_committed (embedP : String → Option Vec) (s : State)
    (head relation tail : String) :
    hasEdge (addTripleE embedP s head relation tail).1 head tail = true ∧
    relationOf (addTripleE embedP s head relation tail).1 head tail = some relation := by
  constructor
  · rw [hasEdge, addTripleE_graph, lookup_insertKey]
    rfl
  · rw [relationOf, addTripleE_graph, lookup_insertKey]

/-- C5: re-adding an identical triple is idempotent: with the (opaque,
deterministic) embedding provider a plain function, calling
`add(A, r1, B)` twice leaves the whole state — graph, node embeddings of
`A` and `B`, and the edge embedding of `(A, B)` — identical to the state
after the first call: the node embeddings are found in the cache and not
recomputed, while the edge embedding is recomputed to the same value and
overwrites itself in place. -/
theorem c5_readd_idempotent (embed : String → Vec) (s : State) (A r1 B : String) :
    addTriple embed (addTriple embed s A r1 B) A r1 B = addTriple embed s A r1 B := by
  have hskip : addNodeEmbs (fun x => some (embed x)) (sortedPairList A B)
      { addTriple embed s A r1 B with
        graph := insertKey (A, B) r1 (addTriple embed s A r1 B).graph }
      = ({ addTriple embed s A r1 B with
            graph := insertKey (A, B) r1 (addTriple embed s A r1 B).graph }, .ok ()) :=
    addNodeEmbs_skip _ _ _ fun n hn => addTriple_nodeEmb_present embed s A r1 B n hn
  apply State.ext'
  · rw [addTriple_graph embed (addTriple embed s A r1 B), addTriple_graph embed s,
      insertKey_insertKey]
  · rw [addTriple_nodeEmb embed (addTriple embed s A r1 B), hskip]
  · rw [addTriple_edgeEmb embed (addTriple embed s A r1 B), hskip]
    show insertKey (A, B) (embed (normalizeText (A ++ " " ++ r1 ++ " " ++ B)))
        (addTriple embed s A r1 B).edgeEmb = (addTriple embed s A r1 B).edgeEmb
    rw [addTriple_edgeEmb embed s, insertKey_insertKey]
  · rw [addTriple_tripleToEdge embed (addTriple embed s A r1 B), hskip]
    show insertKey (Triple.mk A r1 B) (A, B) (addTriple embed s A r1 B).tripleToEdge
        = (addTriple embed s A r1 B).tripleToEdge
    rw [addTriple_tripleToEdge embed s, insertKey_insertKey]

/-- C4: after `add(A, r1, B)` followed by `add(A, r2, B)` (with
`r1 ≠ r2`), the relation stored for the ordered pair `(A, B)` is `r2`, and
`(A, r1, B)` is no longer derivable from the store: it is not a stored
triple, it cannot appear in any retrieval output, and it cannot appear in
any expansion output whose seed does not already contain it (formatting
depends only on the triples passed to it, which the pipeline draws from
retrieval and expansion). -/
theorem c4_overwrite (embed : String → Vec) (s : State) (A r1 r2 B : String)
    (hne : r1 ≠ r2) :
    relationOf (addTriple embed (addTriple embed s A r1 B) A r2 B) A B = some r2 ∧
    ¬ storedTriple (addTriple embed (addTriple embed s A r1 B) A r2 B)
        (Triple.mk A r1 B) ∧
    (∀ (cos : Vec → Vec → ℚ) (q : String) (top_k : ℕ) (θ : ℚ),
        Triple.mk A r1 B ∉
          (retrieveRelevantSubgraph cos embed
            (addTriple embed (addTriple embed s A r1 B) A r2 B) q top_k θ).rankedList) ∧
    (∀ (seed : List Triple) (hops cap : ℕ) (l : List Triple),
        Triple.mk A r1 B ∉ seed →
        expandSubgraph (addTriple embed (addTriple embed s A r1 B) A r2 B) seed hops cap
            = .ok l →
        Triple.mk A r1 B ∉ l) := by
  have hrel : relationOf (addTriple embed (addTriple embed s A r1 B) A r2 B) A B
      = some r2 := by
    rw [relationOf, addTriple_graph, lookup_insertKey]
  have hnotstored : ¬ storedTriple (addTriple embed (addTriple embed s A r1 B) A r2 B)
      (Triple.mk A r1 B) := by
    rintro ⟨-, h2⟩
    rw [relD] at h2
    dsimp only at h2
    rw [hrel] at h2
    exact hne (by simpa using h2)
  refine ⟨hrel, hnotstored, ?_, ?_⟩
  · intro cos q top_k θ hmem
    exact hnotstored (mem_rankedList_stored hmem)
  · intro seed hops cap l hseed hok hmem
    obtain ⟨stF, hloop, hl⟩ := expandSubgraph_ok_elim hok
    rw [hl, List.mem_insertionSort] at hmem
    rcases expandLoop_ok_fst_sub hops _ stF hloop _ hmem with h' | h'
    · rcases (mem_foldl_insertNew _ _ _).mp h' with h'' | h''
      · exact absurd h'' (List.not_mem_nil _)
      · exact hseed h''
    · dsimp only at h'
      rw [hrel] at h'
      have h'' : r2 = r1 := by simpa using h'
      exact hne h''.symm

theorem c4_witness :
    relationOf (addTriple embedOne (addTriple embedOne emptyState "a" "r1" "b")
        "a" "r2" "b") "a" "b" = some "r2" :=
  (c4_overwrite embedOne emptyState "a" "r1" "r2" "b" (by decide)).1

/-- C9 (amended): expansion is extensive whenever it returns an output:
if `expand(seed, hops, maxNeighborsPerHop)` returns the list `l` (rather
than raising `NetworkXError` on a seed endpoint missing from the graph),
every seed triple is contained in `l`. -/
theorem c9_extensive_amended (s : State) (seed : List Triple) (hops cap : ℕ)
    (l : List Triple) (h : expandSubgraph s seed hops cap = .ok l) :
    ∀ t ∈ seed, t ∈ l := by
  obtain ⟨stF, hloop, hl⟩ := expandSubgraph_ok_elim h
  intro t ht
  rw [hl, List.mem_insertionSort]
  exact expandLoop_ok_fst_mono hops _ stF hloop t
    ((mem_foldl_insertNew _ _ _).mpr (Or.inr ht))

theorem c9_witness :
    Triple.mk "a" "r" "b"
      ∈ ([⟨"a", "r", "b"⟩] : List Triple) :=
  c9_extensive_amended (addTriple embedOne emptyState "a" "r" "b")
    [⟨"a", "r", "b"⟩] 1 10 [⟨"a", "r", "b"⟩]
    (by with_unfolding_all decide) ⟨"a", "r", "b"⟩ (by decide)

/-- C9 counterexample: as stated ("for every seed triple list, every hop
count, and every neighbor cap, every triple of the seed set is contained in
the output of expand"), the claim fails: with one or more hops and a seed
endpoint that is not a node of the graph, `expand` raises `NetworkXError`
(from `knowledge_graph.neighbors`) and produces no output at all. -/
theorem c9_counterexample :
    expandSubgraph emptyState [⟨"p", "q", "w"⟩] 2 5
        = .error ("The node " ++ "p" ++ " is not in the digraph.") ∧
    ¬ ∃ l, expandSubgraph emptyState [⟨"p", "q", "w"⟩] 2 5 = .ok l ∧
        Triple.mk "p" "q" "w" ∈ l := by
  have h : expandSubgraph emptyState [⟨"p", "q", "w"⟩] 2 5
      = .error ("The node " ++ "p" ++ " is not in the digraph.") := by decide
  refine ⟨h, ?_⟩
  rintro ⟨l, hl, -⟩
  rw [h] at hl
  exact Except.noConfusion hl

/-- C6 (amended): `expand(seed, 0, m)` returns exactly the seed set,
deduplicated and sorted by `(head, relation, tail)`, for every cap `m`; and
`expand(seed, h, 0)` does the same for every hop count `h` provided every
seed endpoint is a node of the graph — otherwise the first hop raises
`NetworkXError` before the empty neighbor slice is taken (see the
counterexample). -/
theorem c6_trivial_params_amended (s : State) (seed : List Triple) (hops cap : ℕ)
    (h : hops = 0 ∨
      (cap = 0 ∧ ∀ t ∈ seed, t.head ∈ graphNodes s ∧ t.tail ∈ graphNodes s)) :
    ∃ l, expandSubgraph s seed hops cap = .ok l ∧ (∀ t, t ∈ l ↔ t ∈ seed) ∧
      l.Sorted tripleLE ∧ l.Nodup := by
  have he0 : ∀ t : Triple, t ∈ seed.foldl (fun lst u => insertNew u lst) [] ↔ t ∈ seed := by
    intro t
    rw [mem_foldl_insertNew]
    simp
  have hok : expandSubgraph s seed hops cap
      = .ok (List.insertionSort tripleLE (seed.foldl (fun lst u => insertNew u lst) [])) := by
    rcases h with rfl | ⟨rfl, hcond⟩
    · exact expandSubgraph_eq_ok (expandLoop_zero s cap _)
    · refine expandSubgraph_eq_ok (expandLoop_cap0 ?_ hops)
      intro t ht
      exact hcond t ((he0 t).mp ht)
  refine ⟨_, hok, ?_, List.sorted_insertionSort _ _, ?_⟩
  · intro t
    rw [List.mem_insertionSort, he0]
  · exact (List.perm_insertionSort tripleLE _).nodup_iff.mpr
      (nodup_foldl_insertNew _ _ List.nodup_nil)

theorem c6_witness :
    ∃ l, expandSubgraph emptyState [⟨"a", "r", "b"⟩] 0 7 = .ok l ∧
      (∀ t, t ∈ l ↔ t ∈ ([⟨"a", "r", "b"⟩] : List Triple)) ∧
      l.Sorted tripleLE ∧ l.Nodup :=
  c6_trivial_params_amended emptyState [⟨"a", "r", "b"⟩] 0 7 (Or.inl rfl)

/-- C6 counterexample: `expand([("a","r","b")], 1, 0)` on the empty store
does not return the seed set: `sorted(list(neighbors("a")))` raises
`NetworkXError` before the `[:0]` slice is applied, because `"a"` is not a
graph node. -/
theorem c6_counterexample :
    expandSubgraph emptyState [⟨"a", "r", "b"⟩] 1 0
      = .error ("The node " ++ "a" ++ " is not in the digraph.") := by
  decide

/-- C2 (amended): `knowledge_graph.neighbors` enumerates only successors
(outgoing edges), not both directions as the claim states; an unvisited
predecessor `X` of `Y` is therefore discovered by the incoming-edge check
only when `X` is also among the first `maxNeighborsPerHop` sorted
successors of `Y` (and not first consumed as a neighbor of the other seed
endpoint).  Under those conditions the triple `(X, r, Y)` is indeed added
to the round's discovery set and appears in the output. -/
theorem c2_incoming_discovery_amended (s : State) (Y Z r0 X r : String) (cap : ℕ)
    (hY : Y ∈ graphNodes s) (hZ : Z ∈ graphNodes s)
    (hXY : relationOf s X Y = some r)
    (hXmem : X ∈ (List.insertionSort strLE (successors s Y)).take cap)
    (hXZ : X ∉ (List.insertionSort strLE (successors s Z)).take cap)
    (hne1 : X ≠ Y) (hne2 : X ≠ Z) :
    ∃ l, expandSubgraph s [⟨Y, r0, Z⟩] 1 cap = .ok l ∧ Triple.mk X r Y ∈ l := by
  have hseen0 : X ∉ insertNew Z (insertNew Y ([] : List String)) := by
    intro hx
    rcases mem_insertNew.mp hx with rfl | hx'
    · exact hne2 rfl
    · rcases mem_insertNew.mp hx' with rfl | hx''
      · exact hne1 rfl
      · exact absurd hx'' (List.not_mem_nil X)
  have hmain : ∃ acc', processNodes s cap (sortedPairList Y Z)
      ([], insertNew Z (insertNew Y [])) = .ok acc' ∧ Triple.mk X r Y ∈ acc'.1 := by
    rw [sortedPairList]
    by_cases hYZ : strLE Y Z
    · rw [if_pos hYZ]
      rw [processNodes_cons_ok (processNode_eq_ok hY),
        processNodes_cons_ok (processNode_eq_ok hZ), processNodes_nil]
      refine ⟨_, rfl, ?_⟩
      apply foldl_processNeighbor_fst_mono
      exact foldl_processNeighbor_discovers _ _ _ (neighbors_take_nodup s Y cap)
        hXmem hseen0 hXY
    · rw [if_neg hYZ]
      rw [processNodes_cons_ok (processNode_eq_ok hZ),
        processNodes_cons_ok (processNode_eq_ok hY), processNodes_nil]
      refine ⟨_, rfl, ?_⟩
      have hseen1 : X ∉ (((List.insertionSort strLE (successors s Z)).take cap).foldl
          (processNeighbor s Z) ([], insertNew Z (insertNew Y []))).2 := by
        intro hx
        rcases foldl_processNeighbor_snd _ _ _ hx with h' | h'
        · exact hseen0 h'
        · exact hXZ h'
      exact foldl_processNeighbor_discovers _ _ _ (neighbors_take_nodup s Y cap)
        hXmem hseen1 hXY
  obtain ⟨accF, hF, hmem⟩ := hmain
  have h1 : processTriples s cap
      (List.insertionSort tripleLE (insertNew (Triple.mk Y r0 Z) []))
      ([], insertNew Z (insertNew Y [])) = .ok accF := by
    rw [show List.insertionSort tripleLE (insertNew (Triple.mk Y r0 Z) [])
        = [Triple.mk Y r0 Z] from rfl]
    rw [processTriples_cons_ok hF, processTriples_nil]
  have h2 := @oneHop_eq s cap (insertNew (Triple.mk Y r0 Z) [], insertNew Z (insertNew Y [])) accF h1
  have h3 : expandLoop s cap 1 (insertNew (Triple.mk Y r0 Z) [], insertNew Z (insertNew Y []))
      = .ok (accF.1.foldl (fun lst t => insertNew t lst) (insertNew (Triple.mk Y r0 Z) []),
          accF.2) := by
    rw [expandLoop_succ_ok h2, expandLoop_zero]
  have h4 := @expandSubgraph_eq_ok s [Triple.mk Y r0 Z] 1 cap _ h3
  refine ⟨_, h4, ?_⟩
  rw [List.mem_insertionSort]
  exact (mem_foldl_insertNew _ _ _).mpr (Or.inr hmem)

theorem c2_witness :
    ∃ l, expandSubgraph stC2w [⟨"y", "r0", "z"⟩] 1 10 = .ok l ∧
      Triple.mk "x" "rx" "y" ∈ l :=
  c2_incoming_discovery_amended stC2w "y" "z" "r0" "x" "rx" 10
    (by with_unfolding_all decide) (by with_unfolding_all decide)
    (by with_unfolding_all decide) (by with_unfolding_all decide)
    (by with_unfolding_all decide) (by decide) (by decide)

/-- C2 counterexample: in the store with edges `x→y` and `y→z` and the seed
triple `(y, r0, z)`, the entity `x` is an unvisited predecessor of the
endpoint `y` well within the cap, and the edge `(x, rx, y)` exists; yet the
expansion round discovers nothing, because `neighbors(y)` yields only the
successor `z` — predecessors are never enumerated, so the claimed
incoming-edge discovery of `(x, rx, y)` does not happen. -/
theorem c2_counterexample :
    relationOf stC2 "x" "y" = some "rx" ∧
    ("x" : String) ∉ ["y", "z"] ∧
    expandSubgraph stC2 [⟨"y", "r0", "z"⟩] 1 10 = .ok [⟨"y", "r0", "z"⟩] := by
  with_unfolding_all decide

theorem c7_witness :
    generateContext [⟨"A", "r1", "B"⟩, ⟨"A", "r2", "C"⟩] "structured"
      = .ok ("A" ++ " -> " ++ "r1" ++ " " ++ "B" ++ "; " ++ "r2" ++ " " ++ "C") :=
  c7_formatting.2.2.1 "A" "r1" "B" "r2" "C" (by decide)

end LinkLogic
